import Mathlib

/-!
Verification of the sentence-selection / summarization core of `app.py`
(unsupervised extractive summarizer).

The Python source is shallowly embedded: strings are `List Char` / `String`,
Python floats are modelled as `ℚ` (all comparisons in the relevant claims are
exact at the modelled values), dictionaries keyed by sentence index are total
functions `Nat → ℚ` whose value outside the populated range is the `.get`
default `0`.  Calls into external libraries (`sklearn`'s TF-IDF/cosine,
`networkx.pagerank`) are parameters of the embedded pipeline: a similarity
oracle `simOf` and a PageRank outcome `Option (Nat → ℚ)` (`none` models the
call raising an exception).

Regex substitutions are embedded as left-to-right scans via the structural
scanner `scanSub`; the fuel argument (instantiated with the input length) only
serves to make the recursion structural, since every successful match consumes
at least one character.
-/

/-- The set of characters Python's regex `\s` (and `str.strip`) treat as
whitespace for `str` patterns (given by code points beyond ASCII). -/
def isPySpace (c : Char) : Bool :=
  c = ' ' || c = '\t' || c = '\n' || c = '\x0b' || c = '\x0c' || c = '\r' ||
  c.toNat = 0x1c || c.toNat = 0x1d || c.toNat = 0x1e || c.toNat = 0x1f ||
  c.toNat = 0x85 || c.toNat = 0xa0 || c.toNat = 0x1680 ||
  (0x2000 ≤ c.toNat && c.toNat ≤ 0x200a) ||
  c.toNat = 0x2028 || c.toNat = 0x2029 || c.toNat = 0x202f || c.toNat = 0x205f ||
  c.toNat = 0x3000

/-- ASCII decimal digit, Python's `\d` on the inputs of interest. -/
def isDigit09 (c : Char) : Bool := '0' ≤ c && c ≤ '9'

/-- `text.replace("\r", " ").replace("\xa0", " ")` (`app.py`, line 1038):
single-character replacement is a character map. -/
def replCR (c : Char) : Char := if c = '\r' || c.toNat = 0xa0 then ' ' else c

/-- Generic left-to-right regex-substitution scan: at each position `step` is
given the remaining text; on a match it returns the replacement text and the
rest after the match (scanning resumes there, as `re.sub` does); otherwise the
scanner advances one character. -/
def scanSub (step : List Char → Option (List Char × List Char)) :
    Nat → List Char → List Char
  | _, [] => []
  | 0, l => l
  | fuel + 1, c :: cs =>
    match step (c :: cs) with
    | some (out, rest) => out ++ scanSub step fuel rest
    | none => c :: scanSub step fuel cs

/-- One attempted match of the regex `Page \d+ of \d+` (`app.py`, line 1039)
anchored at the head of `l`; on success returns the remainder after the match.
Since each `\d+` in the pattern is followed by a non-digit, the greedy maximal
digit run is the only run the regex engine can use, so no backtracking is
modelled. -/
def matchPage (l : List Char) : Option (List Char) :=
  match l.dropPrefix? "Page ".toList with
  | none => none
  | some r1 =>
    if r1.takeWhile isDigit09 = [] then none else
    match (r1.dropWhile isDigit09).dropPrefix? " of ".toList with
    | none => none
    | some r2 =>
      if r2.takeWhile isDigit09 = [] then none else some (r2.dropWhile isDigit09)

/-- `re.sub(r'Page \d+ of \d+', '', text)` (`app.py`, line 1039). -/
def pageSub (l : List Char) : List Char :=
  scanSub (fun r => (matchPage r).map (fun rest => ([], rest))) l.length l

/-- `re.sub(r'\s+', " ", text)` (`app.py`, line 1040): every maximal run of
whitespace becomes one space.  `inRun` records whether the previous character
belonged to a run whose single space has already been emitted. -/
def collapseWsAux : Bool → List Char → List Char
  | _, [] => []
  | inRun, c :: cs =>
    if isPySpace c then
      if inRun then collapseWsAux true cs
      else ' ' :: collapseWsAux true cs
    else c :: collapseWsAux false cs

def collapseWs (l : List Char) : List Char := collapseWsAux false l

/-- `str.strip()` on the trailing side. -/
def stripEnd (l : List Char) : List Char := (l.reverse.dropWhile isPySpace).reverse

/-- `text.strip()` (`app.py`, line 1041). -/
def stripWs (l : List Char) : List Char := stripEnd (l.dropWhile isPySpace)

/-- `normalize_whitespace` (`app.py`, lines 1037-1041). -/
def normalize_whitespace (s : String) : String :=
  String.mk (stripWs (collapseWs (pageSub (s.toList.map replCR))))

/-! ### Whitespace-normal forms (toward claim C3) -/

theorem dropWhile_eq_cons_false {p : Char → Bool} {l rest : List Char} {c : Char}
    (h : l.dropWhile p = c :: rest) : p c = false := by
  induction l with
  | nil => simp at h
  | cons a as ih =>
    rw [List.dropWhile_cons] at h
    by_cases hp : p a
    · rw [if_pos hp] at h; exact ih h
    · rw [if_neg hp] at h
      cases h
      simpa using hp

theorem dropWhile_idem (p : Char → Bool) (l : List Char) :
    (l.dropWhile p).dropWhile p = l.dropWhile p := by
  cases h : l.dropWhile p with
  | nil => rfl
  | cons c rest =>
    rw [List.dropWhile_cons, dropWhile_eq_cons_false h]
    simp

/-- After `collapseWsAux`, every character is either a plain space or a
non-whitespace character of the input. -/
theorem collapseWsAux_mem {c : Char} :
    ∀ (l : List Char) (b : Bool), c ∈ collapseWsAux b l →
      c = ' ' ∨ (c ∈ l ∧ isPySpace c = false) := by
  intro l
  induction l with
  | nil => intro b h; simp [collapseWsAux] at h
  | cons a as ih =>
    intro b h
    rw [collapseWsAux] at h
    by_cases hws : isPySpace a
    · rw [if_pos hws] at h
      cases b with
      | true =>
        rw [if_pos rfl] at h
        rcases ih true h with h2 | h2
        · exact Or.inl h2
        · exact Or.inr ⟨List.mem_cons_of_mem _ h2.1, h2.2⟩
      | false =>
        rw [if_neg Bool.false_ne_true] at h
        rcases List.mem_cons.mp h with h2 | h2
        · exact Or.inl h2
        · rcases ih true h2 with h3 | h3
          · exact Or.inl h3
          · exact Or.inr ⟨List.mem_cons_of_mem _ h3.1, h3.2⟩
    · rw [if_neg hws] at h
      rcases List.mem_cons.mp h with h2 | h2
      · subst h2
        exact Or.inr ⟨List.mem_cons_self _ _, by simpa using hws⟩
      · rcases ih false h2 with h3 | h3
        · exact Or.inl h3
        · exact Or.inr ⟨List.mem_cons_of_mem _ h3.1, h3.2⟩

/-- Whitespace-normal form: every whitespace character is a plain space and no
two adjacent characters are both whitespace. -/
def wsNormal (l : List Char) : Prop :=
  (∀ c ∈ l, isPySpace c = true → c = ' ') ∧
  l.Chain' (fun a b => ¬(isPySpace a = true ∧ isPySpace b = true))

theorem collapseWsAux_spec (l : List Char) : ∀ b : Bool,
    (∀ c ∈ collapseWsAux b l, isPySpace c = true → c = ' ') ∧
    (collapseWsAux b l).Chain' (fun a b => ¬(isPySpace a = true ∧ isPySpace b = true)) ∧
    (b = true → ∀ c, (collapseWsAux b l).head? = some c → isPySpace c = false) := by
  induction l with
  | nil =>
    intro b
    refine ⟨by simp [collapseWsAux], by simp [collapseWsAux], ?_⟩
    intro _ c h
    simp [collapseWsAux] at h
  | cons a as ih =>
    intro b
    rw [collapseWsAux]
    by_cases hws : isPySpace a
    · rw [if_pos hws]
      cases b with
      | true =>
        rw [if_pos rfl]
        exact ⟨(ih true).1, (ih true).2.1, fun _ => (ih true).2.2 rfl⟩
      | false =>
        rw [if_neg Bool.false_ne_true]
        refine ⟨?_, ?_, ?_⟩
        · intro c hc hcs
          rcases List.mem_cons.mp hc with h2 | h2
          · exact h2
          · rcases collapseWsAux_mem _ _ h2 with h3 | h3
            · exact h3
            · exact absurd hcs (by simp [h3.2])
        · rw [List.chain'_cons']
          refine ⟨?_, (ih true).2.1⟩
          intro y hy
          have hyf := (ih true).2.2 rfl y hy
          intro hcon
          rw [hyf] at hcon
          exact Bool.false_ne_true hcon.2
        · intro hfalse; cases hfalse
    · rw [if_neg hws]
      refine ⟨?_, ?_, ?_⟩
      · intro c hc hcs
        rcases List.mem_cons.mp hc with h2 | h2
        · exact absurd (h2 ▸ hcs) (by simpa using hws)
        · rcases collapseWsAux_mem _ _ h2 with h3 | h3
          · exact h3
          · exact absurd hcs (by simp [h3.2])
      · rw [List.chain'_cons']
        refine ⟨?_, (ih false).2.1⟩
        intro y _ hcon
        exact hws hcon.1
      · intro _ c hc
        simp only [List.head?_cons, Option.some.injEq] at hc
        subst hc
        simpa using hws

theorem collapseWs_wsNormal (l : List Char) : wsNormal (collapseWs l) :=
  ⟨(collapseWsAux_spec l false).1, (collapseWsAux_spec l false).2.1⟩

theorem collapseWsAux_id (l : List Char) (h : wsNormal l) :
    collapseWsAux false l = l ∧
    ((∀ c, l.head? = some c → isPySpace c = false) → collapseWsAux true l = l) := by
  induction l with
  | nil => exact ⟨rfl, fun _ => rfl⟩
  | cons a as ih =>
    have htail : wsNormal as :=
      ⟨fun d hd => h.1 d (List.mem_cons_of_mem _ hd), (List.chain'_cons'.mp h.2).2⟩
    by_cases hws : isPySpace a
    · have ha : a = ' ' := h.1 a (List.mem_cons_self _ _) hws
      have hhead : ∀ c, as.head? = some c → isPySpace c = false := by
        intro c hc
        have hrel := (List.chain'_cons'.mp h.2).1 c hc
        by_cases h2 : isPySpace c
        · exact absurd ⟨hws, h2⟩ hrel
        · simpa using h2
      constructor
      · rw [collapseWsAux, if_pos hws]
        rw [if_neg Bool.false_ne_true]
        rw [(ih htail).2 hhead, ha]
      · intro hcontr
        have hfa := hcontr a (by simp)
        rw [hws] at hfa
        exact absurd hfa (by simp)
    · constructor
      · rw [collapseWsAux, if_neg hws, (ih htail).1]
      · intro _
        rw [collapseWsAux, if_neg hws, (ih htail).1]

theorem wsNormal_collapseWs_id {l : List Char} (h : wsNormal l) : collapseWs l = l :=
  (collapseWsAux_id l h).1

theorem stripEnd_prefix_self (l : List Char) : stripEnd l <+: l := by
  rw [stripEnd, ← List.reverse_suffix]
  simpa using List.dropWhile_suffix (l := l.reverse) isPySpace

theorem stripWs_infix_self (l : List Char) : stripWs l <:+: l :=
  (stripEnd_prefix_self _).isInfix.trans (List.dropWhile_suffix isPySpace).isInfix

theorem wsNormal_mono {l m : List Char} (h : wsNormal l) (hm : m <:+: l) : wsNormal m :=
  ⟨fun c hc => h.1 c (hm.sublist.subset hc), List.Chain'.infix h.2 hm⟩

theorem stripEnd_idem (l : List Char) : stripEnd (stripEnd l) = stripEnd l := by
  simp [stripEnd, dropWhile_idem]

theorem dropWhile_stripEnd_dropWhile (l : List Char) :
    (stripEnd (l.dropWhile isPySpace)).dropWhile isPySpace =
      stripEnd (l.dropWhile isPySpace) := by
  cases h : stripEnd (l.dropWhile isPySpace) with
  | nil => simp
  | cons c rest =>
    have hpre : stripEnd (l.dropWhile isPySpace) <+: l.dropWhile isPySpace :=
      stripEnd_prefix_self _
    rw [h] at hpre
    obtain ⟨t, ht⟩ := hpre
    have hfix : (l.dropWhile isPySpace).dropWhile isPySpace = l.dropWhile isPySpace :=
      dropWhile_idem isPySpace l
    rw [← ht] at hfix
    have hc : isPySpace c = false := by
      rw [List.cons_append] at hfix
      exact dropWhile_eq_cons_false hfix
    rw [List.dropWhile_cons, hc]
    simp

theorem stripWs_idem (l : List Char) : stripWs (stripWs l) = stripWs l := by
  rw [stripWs, stripWs, dropWhile_stripEnd_dropWhile, stripEnd_idem]

theorem mk_toList (s : String) : String.mk s.toList = s := rfl

/-! ### Claim C3: idempotence of `normalize_whitespace` -/

/-- C3, counterexample: `normalize_whitespace` is NOT idempotent.  On
`"Page 1\nof 2"` the page-artifact regex does not match (the pattern requires
literal spaces, the input has a newline), but whitespace collapsing then
produces `"Page 1 of 2"`, which a second pass deletes entirely. -/
theorem normalize_whitespace_not_idem :
    normalize_whitespace (normalize_whitespace "Page 1\nof 2") ≠
      normalize_whitespace "Page 1\nof 2" := by decide

/-- C3 (amended): `normalize_whitespace` is idempotent on every string `x` for
which the page-artifact removal step leaves `normalize_whitespace x` unchanged
(in particular whenever no `Page N of M` pattern survives or is created);
whitespace collapsing and stripping are idempotent unconditionally. -/
theorem normalize_whitespace_idem_of_pageSub_fixed (x : String)
    (hp : pageSub (normalize_whitespace x).toList = (normalize_whitespace x).toList) :
    normalize_whitespace (normalize_whitespace x) = normalize_whitespace x := by
  have hzl : (normalize_whitespace x).toList =
      stripWs (collapseWs (pageSub (x.toList.map replCR))) := rfl
  have hnorm : wsNormal (normalize_whitespace x).toList := by
    rw [hzl]
    exact wsNormal_mono (collapseWs_wsNormal _) (stripWs_infix_self _)
  have hmap : (normalize_whitespace x).toList.map replCR =
      (normalize_whitespace x).toList := by
    have h1 : ∀ c ∈ (normalize_whitespace x).toList, replCR c = c := by
      intro c hc
      rw [hzl] at hc
      have hc2 : c ∈ collapseWs (pageSub (x.toList.map replCR)) :=
        (stripWs_infix_self _).sublist.subset hc
      rcases collapseWsAux_mem _ _ hc2 with h | h
      · subst h; rfl
      · rw [replCR]
        have hcond : (c = '\r' || c.toNat = 0xa0) = false := by
          have hns := h.2
          cases hcr : decide (c = '\r') with
          | true =>
            have : c = '\r' := of_decide_eq_true hcr
            subst this
            simp [isPySpace] at hns
          | false =>
            cases ha0 : decide (c.toNat = 0xa0) with
            | true =>
              have : c.toNat = 0xa0 := of_decide_eq_true ha0
              rw [isPySpace, this] at hns
              simp at hns
            | false => simp [decide_eq_false_iff_not.mp hcr,
                             decide_eq_false_iff_not.mp ha0]
        rw [hcond]
        simp
    calc (normalize_whitespace x).toList.map replCR
        = (normalize_whitespace x).toList.map id := List.map_congr_left h1
      _ = (normalize_whitespace x).toList := List.map_id _
  show String.mk (stripWs (collapseWs (pageSub
      ((normalize_whitespace x).toList.map replCR)))) = normalize_whitespace x
  rw [hmap, hp, wsNormal_collapseWs_id hnorm]
  have hstrip : stripWs (normalize_whitespace x).toList =
      (normalize_whitespace x).toList := by
    rw [hzl, stripWs_idem]
  rw [hstrip, mk_toList]

/-- C3 witness: a concrete page-pattern-free input on which the amended
idempotence theorem applies. -/
theorem normalize_whitespace_idem_witness :
    pageSub (normalize_whitespace "hello \t world ").toList =
        (normalize_whitespace "hello \t world ").toList ∧
    normalize_whitespace (normalize_whitespace "hello \t world ") =
      normalize_whitespace "hello \t world " :=
  ⟨by decide, normalize_whitespace_idem_of_pageSub_fixed _ (by decide)⟩

/-! ### Sentence segmentation (`sentence_split`, `app.py` lines 1043-1071) -/

/-- `re.sub(r"\n+", " ", text)` (line 1044), same run-collapsing scheme as
`collapseWsAux`. -/
def collapseNlAux : Bool → List Char → List Char
  | _, [] => []
  | inRun, c :: cs =>
    if c = '\n' then
      if inRun then collapseNlAux true cs
      else ' ' :: collapseNlAux true cs
    else c :: collapseNlAux false cs

def collapseNl (l : List Char) : List Char := collapseNlAux false l

/-- The abbreviation-masking table (lines 1046-1051); the Python dict literal
lists `"i.e."` and `"e.g."` twice with identical values, so the deduplicated
insertion-order table is kept. -/
def abbreviations : List (String × String) :=
  [("Dr.", "Dr<DOT>"), ("Mr.", "Mr<DOT>"), ("Ms.", "Ms<DOT>"), ("Mrs.", "Mrs<DOT>"),
   ("Fig.", "Fig<DOT>"), ("No.", "No<DOT>"), ("Vol.", "Vol<DOT>"),
   ("approx.", "approx<DOT>"), ("vs.", "vs<DOT>"), ("e.g.", "e<DOT>g<DOT>"),
   ("i.e.", "i<DOT>e<DOT>"), ("et al.", "et_al<DOT>")]

/-- Python `text.replace(old, new)`: left-to-right, non-overlapping (the guard
`pat ≠ []` is vacuous for the patterns used here). -/
def pyReplace (pat rep : List Char) (l : List Char) : List Char :=
  scanSub (fun r => if pat ≠ [] ∧ pat.isPrefixOf r then some (rep, r.drop pat.length)
                    else none) l.length l

/-- `for abb, mask in abbreviations.items(): text = text.replace(abb, mask)`
(lines 1053-1054). -/
def maskAbbrev (l : List Char) : List Char :=
  abbreviations.foldl (fun acc p => pyReplace p.1.toList p.2.toList acc) l

/-- The unmasking loop applied to each part (lines 1060-1061). -/
def unmaskAbbrev (l : List Char) : List Char :=
  abbreviations.foldl (fun acc p => pyReplace p.2.toList p.1.toList acc) l

/-- Sentence-ending punctuation, the class `\.|\?|\!` of the split regex. -/
def isTermin (c : Char) : Bool := c = '.' || c = '?' || c = '!'

/-- Python `\w`, restricted to ASCII (the inputs the claims quantify over are
insensitive to the exact word-character class). -/
def isWordChar (c : Char) : Bool :=
  ('a' ≤ c && c ≤ 'z') || ('A' ≤ c && c ≤ 'Z') || ('0' ≤ c && c ≤ '9') || c = '_'

def isUpperAZ (c : Char) : Bool := 'A' ≤ c && c ≤ 'Z'

def isLowerAZ (c : Char) : Bool := 'a' ≤ c && c ≤ 'z'

/-- The lookahead class `[A-Z"\'"("]` of the split regex (line 1056): an ASCII
capital, a double quote, a single quote or an opening parenthesis. -/
def isSplitClass (c : Char) : Bool := isUpperAZ c || c = '"' || c = '\'' || c = '('

/-- The two negative lookbehinds `(?<!\w\.\w.)` and `(?<![A-Z][a-z]\.)` of the
split regex, evaluated on the reversed text before the candidate position
(head = character immediately before the position). -/
def lookbehindOk (curRev : List Char) : Bool :=
  (match curRev with
   | p1 :: p2 :: p3 :: p4 :: _ =>
     !(isWordChar p4 && p3 = '.' && isWordChar p2 && !(p1 = '\n'))
   | _ => true) &&
  (match curRev with
   | p1 :: p2 :: p3 :: _ => !(isUpperAZ p3 && isLowerAZ p2 && p1 = '.')
   | _ => true)

/-- A split may start at this position: the previous character is sentence-end
punctuation (`(?<=\.|\?|\!)`) and both negative lookbehinds hold. -/
def cutPre (curRev : List Char) : Bool :=
  (match curRev with
   | p1 :: _ => isTermin p1
   | [] => false) && lookbehindOk curRev

/-- `re.split(r'(?<!\w\.\w.)(?<![A-Z][a-z]\.)(?<=\.|\?|\!)\s+(?=[A-Z"\'"("])', text)`
(line 1056) as a left-to-right scan.  `curRev` is the current part, reversed;
`pendRev` is a (reversed) whitespace run that began at a position where the
lookbehinds held, and becomes a separator exactly when the first character
after the run is in the lookahead class (the greedy `\s+` cannot usefully
backtrack because no whitespace character is in the lookahead class). -/
def splitRegexAux : List Char → List Char → List Char → List (List Char)
  | curRev, [], [] => [curRev.reverse]
  | curRev, p :: ps, [] => [((p :: ps) ++ curRev).reverse]
  | curRev, [], c :: cs =>
    if cutPre curRev && isPySpace c then splitRegexAux curRev [c] cs
    else splitRegexAux (c :: curRev) [] cs
  | curRev, p :: ps, c :: cs =>
    if isPySpace c then splitRegexAux curRev (c :: p :: ps) cs
    else if isSplitClass c then curRev.reverse :: splitRegexAux [c] [] cs
    else splitRegexAux (c :: ((p :: ps) ++ curRev)) [] cs

def splitRegex (l : List Char) : List (List Char) := splitRegexAux [] [] l

/-- `re.match(r'^[0-9\.\s]+$', p)` (line 1066): the candidate consists solely
of digits, dots and whitespace, and is nonempty. -/
def isPureNumber (l : List Char) : Bool :=
  !l.isEmpty && l.all (fun c => isDigit09 c || c = '.' || isPySpace c)

/-- `sentence_split` (`app.py`, lines 1043-1071): collapse newlines, mask
abbreviations, split, then per candidate unmask, strip, and drop short or
pure-number candidates. -/
def sentence_split (text : String) : List String :=
  (splitRegex (maskAbbrev (collapseNl text.toList))).filterMap (fun p =>
    let q := stripWs (unmaskAbbrev p)
    if q.length < 20 then none
    else if isPureNumber q then none
    else some (String.mk q))

/-! ### Claim C5: segmentation count bound -/

theorem termin_not_pySpace {c : Char} (h : isPySpace c = true) : isTermin c = false := by
  by_cases ht : isTermin c = true
  · have hc : (c = '.' ∨ c = '?') ∨ c = '!' := by simpa [isTermin] using ht
    rcases hc with (h1 | h1) | h1 <;> subst h1 <;> exact absurd h (by decide)
  · simpa using ht

theorem collapseNlAux_countP (l : List Char) : ∀ b : Bool,
    List.countP isTermin (collapseNlAux b l) ≤ List.countP isTermin l := by
  induction l with
  | nil => intro b; simp [collapseNlAux]
  | cons c cs ih =>
    intro b
    rw [collapseNlAux]
    by_cases h : c = '\n'
    · rw [if_pos h]
      cases b with
      | true =>
        refine le_trans (ih true) ?_
        rw [List.countP_cons]
        omega
      | false =>
        rw [if_neg Bool.false_ne_true, List.countP_cons, List.countP_cons]
        have h1 : isTermin ' ' = false := by decide
        have h2 : isTermin c = false := by rw [h]; decide
        rw [h1, h2]
        simpa using ih true
    · rw [if_neg h, List.countP_cons, List.countP_cons]
      have := ih false
      omega

theorem scanSub_countP (q : Char → Bool) (step : List Char → Option (List Char × List Char))
    (hstep : ∀ l out rest, step l = some (out, rest) →
      List.countP q out + List.countP q rest ≤ List.countP q l) :
    ∀ (fuel : Nat) (l : List Char), List.countP q (scanSub step fuel l) ≤ List.countP q l := by
  intro fuel
  induction fuel with
  | zero => intro l; cases l <;> simp [scanSub]
  | succ n ih =>
    intro l
    cases l with
    | nil => simp [scanSub]
    | cons c cs =>
      rw [scanSub]
      cases hs : step (c :: cs) with
      | none =>
        rw [List.countP_cons, List.countP_cons]
        have := ih cs
        omega
      | some pr =>
        obtain ⟨out, rest⟩ := pr
        rw [List.countP_append]
        have h1 := hstep _ _ _ hs
        have h2 := ih rest
        omega

theorem pyReplace_countP (q : Char → Bool) (pat rep : List Char)
    (hq : List.countP q rep ≤ List.countP q pat) (l : List Char) :
    List.countP q (pyReplace pat rep l) ≤ List.countP q l := by
  apply scanSub_countP
  intro m out rest hstep
  by_cases hc : pat ≠ [] ∧ pat.isPrefixOf m
  · rw [if_pos hc] at hstep
    have hout : out = rep ∧ rest = m.drop pat.length := by
      have := Option.some.inj hstep
      exact ⟨(Prod.mk.injEq .. ▸ this).1.symm, (Prod.mk.injEq .. ▸ this).2.symm⟩
    obtain ⟨ho, hr⟩ := hout
    rw [ho, hr]
    have hm : pat ++ m.drop pat.length = m :=
      List.prefix_iff_eq_append.mp (List.isPrefixOf_iff_prefix.mp hc.2)
    calc List.countP q rep + List.countP q (m.drop pat.length)
        ≤ List.countP q pat + List.countP q (m.drop pat.length) := by omega
      _ = List.countP q (pat ++ m.drop pat.length) := (List.countP_append ..).symm
      _ = List.countP q m := by rw [hm]
  · rw [if_neg hc] at hstep
    exact absurd hstep (by simp)

theorem foldl_pyReplace_countP (q : Char → Bool) :
    ∀ (ps : List (String × String)) (l : List Char),
      (∀ p ∈ ps, List.countP q p.2.toList ≤ List.countP q p.1.toList) →
      List.countP q (ps.foldl (fun acc p => pyReplace p.1.toList p.2.toList acc) l) ≤
        List.countP q l := by
  intro ps
  induction ps with
  | nil => intro l _; simp
  | cons p ps ih =>
    intro l h
    rw [List.foldl_cons]
    exact le_trans (ih _ (fun r hr => h r (List.mem_cons_of_mem _ hr)))
      (pyReplace_countP q _ _ (h p (List.mem_cons_self _ _)) l)

theorem maskAbbrev_countP (l : List Char) :
    List.countP isTermin (maskAbbrev l) ≤ List.countP isTermin l :=
  foldl_pyReplace_countP isTermin abbreviations l (by decide)

theorem cutPre_countP {curRev : List Char} (h : cutPre curRev = true) :
    1 ≤ List.countP isTermin curRev := by
  unfold cutPre at h
  rw [Bool.and_eq_true] at h
  obtain ⟨h1, -⟩ := h
  cases curRev with
  | nil => simp at h1
  | cons a l =>
    have ha : isTermin a = true := h1
    rw [List.countP_cons, ha]
    simp

theorem splitRegexAux_length :
    ∀ (rest curRev pendRev : List Char),
      (pendRev ≠ [] → cutPre curRev = true) →
      (∀ d ∈ pendRev, isPySpace d = true) →
      (splitRegexAux curRev pendRev rest).length ≤
        List.countP isTermin curRev + List.countP isTermin rest + 1 := by
  intro rest
  induction rest with
  | nil =>
    intro curRev pendRev _ _
    cases pendRev <;> simp [splitRegexAux]
  | cons c cs ih =>
    intro curRev pendRev hpend hws
    cases pendRev with
    | nil =>
      rw [splitRegexAux]
      by_cases hcut : (cutPre curRev && isPySpace c) = true
      · rw [if_pos hcut]
        have h1 := ih curRev [c] (fun _ => (Bool.and_eq_true ..).mp hcut |>.1)
          (by intro d hd
              rw [List.mem_singleton] at hd
              subst hd
              exact ((Bool.and_eq_true ..).mp hcut).2)
        refine le_trans h1 ?_
        rw [List.countP_cons (l := cs)]
        omega
      · rw [if_neg hcut]
        have h1 := ih (c :: curRev) [] (by intro h; exact absurd rfl h) (by intro d hd; simp at hd)
        refine le_trans h1 ?_
        rw [List.countP_cons (l := curRev), List.countP_cons (l := cs)]
        omega
    | cons w pw =>
      rw [splitRegexAux]
      by_cases hc1 : isPySpace c = true
      · rw [if_pos hc1]
        have h1 := ih curRev (c :: w :: pw) (fun _ => hpend (by simp))
          (by intro d hd
              rcases List.mem_cons.mp hd with h2 | h2
              · subst h2; exact hc1
              · exact hws d h2)
        refine le_trans h1 ?_
        rw [List.countP_cons (l := cs)]
        omega
      · rw [if_neg hc1]
        by_cases hc2 : isSplitClass c = true
        · rw [if_pos hc2]
          have hcur : 1 ≤ List.countP isTermin curRev := cutPre_countP (hpend (by simp))
          have h1 := ih [c] [] (by intro h; exact absurd rfl h) (by intro d hd; simp at hd)
          rw [List.length_cons]
          have h2 : List.countP isTermin [c] = if isTermin c = true then 1 else 0 :=
            List.countP_singleton ..
          rw [List.countP_cons (l := cs)]
          by_cases ht : isTermin c = true
          · rw [if_pos ht] at h2
            rw [if_pos ht]
            omega
          · rw [if_neg ht] at h2
            rw [if_neg ht]
            omega
        · rw [if_neg hc2]
          have h1 := ih (c :: ((w :: pw) ++ curRev)) [] (by intro h; exact absurd rfl h)
            (by intro d hd; simp at hd)
          refine le_trans h1 ?_
          have hzero : List.countP isTermin (w :: pw) = 0 := by
            rw [List.countP_eq_zero]
            intro a ha
            rw [termin_not_pySpace (hws a ha)]
            exact Bool.false_ne_true
          rw [List.countP_cons (l := (w :: pw) ++ curRev), List.countP_append, hzero,
              List.countP_cons (l := cs)]
          omega

/-- C5, counterexample: a 45-character sentence with no sentence-ending
punctuation at all is still returned by `sentence_split`, so the count of
produced sentences can exceed the count of `.`, `!`, `?` in the text. -/
theorem sentence_split_count_claim_false :
    ¬((sentence_split "this is a sentence with no ending punctuation").length ≤
        List.countP isTermin "this is a sentence with no ending punctuation".toList) := by
  decide

/-- C5 (amended): for every text, the number of sentences returned by
`sentence_split` is at most the number of sentence-ending punctuation marks
(`.`, `!`, `?`) in the text, plus one (the final fragment needs no
terminator): each split point consumes a distinct terminator, newline
collapsing adds none, and abbreviation masking only removes periods. -/
theorem sentence_split_count_bound (text : String) :
    (sentence_split text).length ≤ List.countP isTermin text.toList + 1 := by
  have h4 : (sentence_split text).length ≤
      (splitRegex (maskAbbrev (collapseNl text.toList))).length :=
    List.length_filterMap_le _ _
  have h1 := splitRegexAux_length (maskAbbrev (collapseNl text.toList)) [] []
    (by intro h; exact absurd rfl h) (by intro d hd; simp at hd)
  have h2 := maskAbbrev_countP (collapseNl text.toList)
  have h3 := collapseNlAux_countP text.toList false
  rw [splitRegex] at h4
  simp only [List.countP_nil] at h1
  calc (sentence_split text).length
      ≤ (splitRegexAux [] [] (maskAbbrev (collapseNl text.toList))).length := h4
    _ ≤ List.countP isTermin (maskAbbrev (collapseNl text.toList)) + 1 := by omega
    _ ≤ List.countP isTermin (collapseNl text.toList) + 1 := by omega
    _ ≤ List.countP isTermin text.toList + 1 := by
        have : List.countP isTermin (collapseNl text.toList) ≤
            List.countP isTermin text.toList := h3
        omega

/-! ### Categorizer (`POLICY_KEYWORDS` / `score_sentence_categories`,
`app.py` lines 1084-1141) -/

/-- Python `str.lower()` restricted to ASCII letters (all keywords are
ASCII). -/
def asciiLower (c : Char) : Char :=
  if 'A' ≤ c && c ≤ 'Z' then Char.ofNat (c.toNat + 32) else c

def lowerStr (s : String) : String := String.mk (s.toList.map asciiLower)

/-- Python substring containment `pat in l`. -/
def containsSub (pat : List Char) : List Char → Bool
  | [] => pat.isEmpty
  | c :: cs => pat.isPrefixOf (c :: cs) || containsSub pat cs

/-- `POLICY_KEYWORDS` (lines 1084-1120), in dict insertion order. -/
def POLICY_KEYWORDS : List (String × List String) :=
  [("key goals",
    ["aim", "goal", "objective", "target", "achieve", "reduce", "increase",
     "coverage", "mortality", "rate", "%", "2025", "2030", "vision", "mission",
     "outcome", "expectancy", "eliminate", "improve", "enhance"]),
   ("policy principles",
    ["principle", "equity", "universal", "right", "access", "accountability",
     "transparency", "inclusive", "patient-centered", "quality", "ethics",
     "value", "integrity", "holistic", "sustainable", "equitable"]),
   ("service delivery",
    ["hospital", "primary care", "secondary care", "tertiary", "referral",
     "clinic", "health center", "wellness", "ambulance", "emergency", "drug",
     "diagnostic", "infrastructure", "bed", "supply chain", "logistics", "facility"]),
   ("prevention & promotion",
    ["prevent", "sanitation", "nutrition", "immunization", "vaccine", "tobacco",
     "alcohol", "hygiene", "awareness", "lifestyle", "pollution", "water",
     "screening", "diet", "exercise", "community", "campaign", "education"]),
   ("human resources",
    ["doctor", "nurse", "staff", "training", "workforce", "recruit", "medical college",
     "paramedic", "salary", "incentive", "capacity building", "skill", "hrh",
     "deployment", "specialist", "professionals", "expertise"]),
   ("financing & costs",
    ["fund", "budget", "finance", "expenditure", "cost", "insurance", "private",
     "partnership", "ppp", "out-of-pocket", "reimbursement", "allocation",
     "spending", "gdp", "tax", "claim", "revenue", "investment"]),
   ("digital health",
    ["digital", "technology", "data", "record", "ehr", "emr", "telemedicine",
     "mobile", "app", "information system", "cyber", "interoperability",
     "portal", "online", "software", "ai", "electronic", "monitoring"])]

/-- `re.search(r'\b20[2-5][0-9]\b', s)`: scans for a window `20[2-5][0-9]`
with word boundaries on both sides; `prevW` tracks whether the previous
character is a word character. -/
def searchYear : Bool → List Char → Bool
  | _, [] => false
  | prevW, c :: cs =>
    (!prevW && c = '2' &&
      (match cs with
       | c2 :: c3 :: c4 :: rest =>
         c2 = '0' && ('2' ≤ c3 && c3 ≤ '5') && isDigit09 c4 &&
           (match rest with
            | [] => true
            | d :: _ => !isWordChar d)
       | _ => false)) ||
    searchYear (isWordChar c) cs

/-- `'%' in s_lower or re.search(r'\b20[2-5][0-9]\b', s_lower)`
(line 1133). -/
def goalBonus (sLower : List Char) : Bool :=
  sLower.contains '%' || searchYear false sLower

/-- Python `max(scores, key=scores.get)` over dict iteration (= insertion)
order: the first key attaining the maximal value (`max` replaces the current
best only on a strictly greater key value). -/
def maxByFirst : List (String × Nat) → String × Nat
  | [] => ("other", 0)
  | x :: xs => xs.foldl (fun acc q => if acc.2 < q.2 then q else acc) x

/-- `score_sentence_categories` (lines 1122-1141): two points per category
keyword contained in the lowercased sentence, `+2` on "key goals" when the
sentence contains a percent sign or a year 2020-2059; the highest-scoring
category wins (ties broken by insertion order); "other" when every score is
zero.  (The `words = re.findall(...)` binding of line 1126 is dead code.) -/
def score_sentence_categories (sentence : String) : String :=
  let sLower := (lowerStr sentence).toList
  let scores : List (String × Nat) :=
    POLICY_KEYWORDS.map (fun cats =>
      (cats.1, 2 * cats.2.countP (fun kw => containsSub kw.toList sLower) +
        (if cats.1 = "key goals" ∧ goalBonus sLower = true then 2 else 0)))
  let best := maxByFirst scores
  if best.2 = 0 then "other" else best.1

/-! ### Claim C4: category assignments are keyword-backed (up to the
numeric-target bonus) -/

theorem foldl_maxByFirst_mem (xs : List (String × Nat)) :
    ∀ x, xs.foldl (fun acc q => if acc.2 < q.2 then q else acc) x ∈ x :: xs := by
  induction xs with
  | nil => intro x; simp
  | cons y ys ih =>
    intro x
    rw [List.foldl_cons]
    by_cases h : x.2 < y.2
    · rw [if_pos h]
      rcases List.mem_cons.mp (ih y) with h2 | h2
      · rw [h2]; simp
      · exact List.mem_cons_of_mem _ (List.mem_cons_of_mem _ h2)
    · rw [if_neg h]
      rcases List.mem_cons.mp (ih x) with h2 | h2
      · rw [h2]; simp
      · exact List.mem_cons_of_mem _ (List.mem_cons_of_mem _ h2)

theorem maxByFirst_mem {l : List (String × Nat)} (h : l ≠ []) : maxByFirst l ∈ l := by
  cases l with
  | nil => exact absurd rfl h
  | cons x xs => exact foldl_maxByFirst_mem xs x

/-- C4 (amended): every sentence assigned to a category other than "other"
contains a literal keyword of that category (case-insensitively), unless the
category is "key goals" and the sentence triggered the numeric-target bonus (a
percent sign or a four-digit year 2020-2059). -/
theorem score_sentence_categories_keyword_or_bonus (s : String)
    (h : score_sentence_categories s ≠ "other") :
    (∃ kws, (score_sentence_categories s, kws) ∈ POLICY_KEYWORDS ∧
       ∃ kw ∈ kws, containsSub kw.toList (lowerStr s).toList = true) ∨
    (score_sentence_categories s = "key goals" ∧
      goalBonus (lowerStr s).toList = true) := by
  rw [score_sentence_categories] at h ⊢
  set sLower := (lowerStr s).toList with hsl
  set scores : List (String × Nat) :=
    POLICY_KEYWORDS.map (fun cats =>
      (cats.1, 2 * cats.2.countP (fun kw => containsSub kw.toList sLower) +
        (if cats.1 = "key goals" ∧ goalBonus sLower = true then 2 else 0))) with hsc
  by_cases hz : (maxByFirst scores).2 = 0
  · rw [if_pos hz] at h
    exact absurd rfl h
  · rw [if_neg hz] at h ⊢
    have hmem : maxByFirst scores ∈ scores := by
      apply maxByFirst_mem
      rw [hsc]
      simp [POLICY_KEYWORDS]
    rw [hsc] at hmem
    rw [List.mem_map] at hmem
    obtain ⟨cats, hcats, heq⟩ := hmem
    have h1 : (maxByFirst scores).1 = cats.1 := by rw [← heq]
    have h2 : (maxByFirst scores).2 =
        2 * cats.2.countP (fun kw => containsSub kw.toList sLower) +
          (if cats.1 = "key goals" ∧ goalBonus sLower = true then 2 else 0) := by
      rw [← heq]
    by_cases hcount : 0 < cats.2.countP (fun kw => containsSub kw.toList sLower)
    · left
      refine ⟨cats.2, ?_, ?_⟩
      · rw [h1]
        exact (Prod.mk.eta (p := cats)) ▸ hcats
      · obtain ⟨kw, hkw, hc⟩ := List.countP_pos_iff.mp hcount
        exact ⟨kw, hkw, hc⟩
    · right
      have hbonus : cats.1 = "key goals" ∧ goalBonus sLower = true := by
        by_contra hcon
        rw [if_neg hcon] at h2
        have : cats.2.countP (fun kw => containsSub kw.toList sLower) = 0 := by omega
        rw [this] at h2
        exact hz (by omega)
      exact ⟨h1 ▸ hbonus.1, hbonus.2⟩

/-- C4, counterexample: the sentence "The plan for 2040 is big." is assigned
to "key goals" solely because of the year-2040 bonus; it contains no literal
keyword of the "key goals" list. -/
theorem score_sentence_categories_claim_false :
    score_sentence_categories "The plan for 2040 is big." = "key goals" ∧
    (∀ entry ∈ POLICY_KEYWORDS, entry.1 = "key goals" →
      ∀ kw ∈ entry.2,
        containsSub kw.toList (lowerStr "The plan for 2040 is big.").toList = false) := by
  decide

/-- C4 witness: a sentence assigned to a non-"other" category via an actual
keyword. -/
theorem score_sentence_categories_witness :
    score_sentence_categories "Our goal is very clear." ≠ "other" ∧
    ((∃ kws, (score_sentence_categories "Our goal is very clear.", kws) ∈ POLICY_KEYWORDS ∧
       ∃ kw ∈ kws,
         containsSub kw.toList (lowerStr "Our goal is very clear.").toList = true) ∨
     (score_sentence_categories "Our goal is very clear." = "key goals" ∧
       goalBonus (lowerStr "Our goal is very clear.").toList = true)) :=
  ⟨by decide, score_sentence_categories_keyword_or_bonus _ (by decide)⟩

/-! ### TextRank scoring (`textrank_scores`, `app.py` lines 1151-1176) -/

/-- The position-bias multiplier (lines 1163-1172); the float thresholds
`0.05`, `0.95`, `0.15` are modelled by their decimal values. -/
def posMult (i doc_len : Nat) : ℚ :=
  if (i : ℚ) / (doc_len : ℚ) < 1/20 then 3/2
  else if 19/20 < (i : ℚ) / (doc_len : ℚ) then 13/10
  else if (i : ℚ) / (doc_len : ℚ) < 3/20 then 6/5
  else 1

/-- `textrank_scores` (lines 1151-1176).  `np.fill_diagonal(sim_mat, 0.0)`
mutates the caller's matrix in place, so the embedding returns the updated
matrix alongside the score dict.  `n` is `sim_mat.shape[0]`; `prOutcome` is
the outcome of the external `nx.pagerank` call (`none` models the `except`
branch, the uniform `1.0/doc_len` fallback).  The returned score function is
`0` outside `range(n)`, the `.get` default. -/
def textrank_scores (sim : Nat → Nat → ℚ) (n doc_len : Nat)
    (prOutcome : Option (Nat → ℚ)) : (Nat → Nat → ℚ) × (Nat → ℚ) :=
  let sim2 : Nat → Nat → ℚ := fun i j => if i = j then 0 else sim i j
  let pr : Nat → ℚ :=
    match prOutcome with
    | some p => p
    | none => fun _ => 1 / (doc_len : ℚ)
  (sim2, fun i => if i < n then pr i * posMult i doc_len else 0)

/-! ### MMR selection (`mmr`, `app.py` lines 1178-1209) -/

/-- `numpy` max over the values of a (nonempty, in every pipeline use) array;
`np.max` raises on an empty array. -/
def npMax : List ℚ → ℚ
  | [] => 0
  | x :: xs => xs.foldl max x

def npMin : List ℚ → ℚ
  | [] => 0
  | x :: xs => xs.foldl min x

/-- Lines 1179-1183: the scores array over `range(n)` (`.get(i, 0.0)`) and its
min-max normalization, applied only when the maximum is positive; the float
literal `1e-12` is modelled by the exact rational. -/
def mmrNormScores (sdict : Nat → ℚ) (n : Nat) : Nat → ℚ :=
  let vals := (List.range n).map sdict
  if 0 < npMax vals then
    fun i => (sdict i - npMin vals) / (npMax vals - npMin vals + 1/1000000000000)
  else sdict

/-- `max([sim_mat[i][j] for j in selected])` guarded by `if selected:`
(lines 1193-1195). -/
def simToSelected (sim : Nat → Nat → ℚ) (i : Nat) (selected : List Nat) : ℚ :=
  if selected.isEmpty then 0
  else npMax (selected.map (fun j => sim i j))

/-- `curr_mmr` (line 1197). -/
def mmrValue (lam : ℚ) (normS : Nat → ℚ) (sim : Nat → Nat → ℚ)
    (selected : List Nat) (i : Nat) : ℚ :=
  lam * normS i - (1 - lam) * simToSelected sim i selected

/-- The inner candidate loop (lines 1189-1201): initial best `-1e9`, strict
improvement only, candidates visited in ascending order (CPython set
iteration over a small dense set of ints is in increasing order, modelled by
keeping the candidate list sorted). -/
def mmrPick (lam : ℚ) (normS : Nat → ℚ) (sim : Nat → Nat → ℚ)
    (selected : List Nat) (cands : List Nat) : Option Nat × ℚ :=
  cands.foldl (fun acc i =>
    let curr := mmrValue lam normS sim selected i
    if acc.2 < curr then (some i, curr) else acc)
    (none, -(1000000000 : ℚ))

/-- The outer `while` loop (lines 1188-1207); the fuel argument makes the
recursion structural and is instantiated with the candidate count, which
bounds the number of iterations since every iteration removes one
candidate. -/
def mmrLoop (lam : ℚ) (normS : Nat → ℚ) (sim : Nat → Nat → ℚ) (k : Nat) :
    Nat → List Nat → List Nat → List Nat
  | 0, selected, _ => selected
  | fuel + 1, selected, cands =>
    if selected.length < k then
      match (mmrPick lam normS sim selected cands).1 with
      | some i => mmrLoop lam normS sim k fuel (selected ++ [i]) (cands.erase i)
      | none => selected
    else selected

/-- `mmr` (lines 1178-1209); `n` is `sim_mat.shape[0]`. -/
def mmr (sdict : Nat → ℚ) (sim : Nat → Nat → ℚ) (n k : Nat) (lam : ℚ) : List Nat :=
  mmrLoop lam (mmrNormScores sdict n) sim k n [] (List.range n)

/-! ### Fold lemmas for `npMax` / `npMin` -/

theorem foldl_max_bounds (xs : List ℚ) :
    ∀ x : ℚ, x ≤ xs.foldl max x ∧ ∀ a ∈ xs, a ≤ xs.foldl max x := by
  induction xs with
  | nil => intro x; exact ⟨le_refl x, by simp⟩
  | cons y ys ih =>
    intro x
    rw [List.foldl_cons]
    refine ⟨le_trans (le_max_left x y) (ih (max x y)).1, ?_⟩
    intro a ha
    rcases List.mem_cons.mp ha with h | h
    · subst h; exact le_trans (le_max_right x a) (ih (max x a)).1
    · exact (ih (max x y)).2 a h

theorem foldl_max_mem (xs : List ℚ) :
    ∀ x : ℚ, xs.foldl max x = x ∨ xs.foldl max x ∈ xs := by
  induction xs with
  | nil => intro x; exact Or.inl rfl
  | cons y ys ih =>
    intro x
    rw [List.foldl_cons]
    rcases ih (max x y) with h | h
    · rcases max_choice x y with h2 | h2
      · left; rw [h, h2]
      · right; rw [h, h2]; simp
    · right; exact List.mem_cons_of_mem _ h

theorem le_npMax_of_mem {l : List ℚ} {a : ℚ} (h : a ∈ l) : a ≤ npMax l := by
  cases l with
  | nil => simp at h
  | cons x xs =>
    rcases List.mem_cons.mp h with h2 | h2
    · subst h2; exact (foldl_max_bounds xs a).1
    · exact (foldl_max_bounds xs x).2 a h2

theorem npMax_mem {l : List ℚ} (h : l ≠ []) : npMax l ∈ l := by
  cases l with
  | nil => exact absurd rfl h
  | cons x xs =>
    rcases foldl_max_mem xs x with h2 | h2
    · rw [npMax, h2]; simp
    · rw [npMax]; exact List.mem_cons_of_mem _ h2

theorem foldl_min_bounds (xs : List ℚ) :
    ∀ x : ℚ, xs.foldl min x ≤ x ∧ ∀ a ∈ xs, xs.foldl min x ≤ a := by
  induction xs with
  | nil => intro x; exact ⟨le_refl x, by simp⟩
  | cons y ys ih =>
    intro x
    rw [List.foldl_cons]
    refine ⟨le_trans (ih (min x y)).1 (min_le_left x y), ?_⟩
    intro a ha
    rcases List.mem_cons.mp ha with h | h
    · subst h; exact le_trans (ih (min x a)).1 (min_le_right x a)
    · exact (ih (min x y)).2 a h

theorem npMin_le_of_mem {l : List ℚ} {a : ℚ} (h : a ∈ l) : npMin l ≤ a := by
  cases l with
  | nil => simp at h
  | cons x xs =>
    rcases List.mem_cons.mp h with h2 | h2
    · subst h2; exact (foldl_min_bounds xs a).1
    · exact (foldl_min_bounds xs x).2 a h2

/-! ### The `best_idx` search: first strict maximum -/

theorem mmrPick_foldl_spec (val : Nat → ℚ) :
    ∀ (cands : List Nat) (acc : Option Nat × ℚ),
      (cands.foldl (fun a i => if a.2 < val i then (some i, val i) else a) acc = acc ∧
        ∀ j ∈ cands, val j ≤ acc.2) ∨
      (∃ l1 i l2, cands = l1 ++ i :: l2 ∧
        cands.foldl (fun a i => if a.2 < val i then (some i, val i) else a) acc =
          (some i, val i) ∧
        acc.2 < val i ∧ (∀ j ∈ l1, val j < val i) ∧ (∀ j ∈ l2, val j ≤ val i)) := by
  intro cands
  induction cands with
  | nil => intro acc; exact Or.inl ⟨rfl, by simp⟩
  | cons c cs ih =>
    intro acc
    rw [List.foldl_cons]
    by_cases hc : acc.2 < val c
    · rw [if_pos hc]
      rcases ih (some c, val c) with ⟨heq, hall⟩ | ⟨l1, i, l2, hsplit, heq, hlt, hl1, hl2⟩
      · right
        exact ⟨[], c, cs, by simp, heq, hc, by simp, hall⟩
      · right
        refine ⟨c :: l1, i, l2, by rw [hsplit]; simp, heq, lt_trans hc hlt, ?_, hl2⟩
        intro j hj
        rcases List.mem_cons.mp hj with h2 | h2
        · subst h2; exact hlt
        · exact hl1 j h2
    · rw [if_neg hc]
      rcases ih acc with ⟨heq, hall⟩ | ⟨l1, i, l2, hsplit, heq, hlt, hl1, hl2⟩
      · left
        refine ⟨heq, ?_⟩
        intro j hj
        rcases List.mem_cons.mp hj with h2 | h2
        · subst h2; exact le_of_not_lt hc
        · exact hall j h2
      · right
        refine ⟨c :: l1, i, l2, by rw [hsplit]; simp, heq, hlt, ?_, hl2⟩
        intro j hj
        rcases List.mem_cons.mp hj with h2 | h2
        · subst h2; exact lt_of_le_of_lt (le_of_not_lt hc) hlt
        · exact hl1 j h2

theorem mmrPick_eq_foldl (lam : ℚ) (normS : Nat → ℚ) (sim : Nat → Nat → ℚ)
    (selected cands : List Nat) :
    mmrPick lam normS sim selected cands =
      cands.foldl (fun a i =>
        if a.2 < mmrValue lam normS sim selected i
        then (some i, mmrValue lam normS sim selected i) else a)
        (none, -(1000000000 : ℚ)) := rfl

theorem mmrPick_mem {lam : ℚ} {normS : Nat → ℚ} {sim : Nat → Nat → ℚ}
    {selected cands : List Nat} {i : Nat}
    (h : (mmrPick lam normS sim selected cands).1 = some i) : i ∈ cands := by
  rw [mmrPick_eq_foldl] at h
  rcases mmrPick_foldl_spec (mmrValue lam normS sim selected) cands
      (none, -(1000000000 : ℚ)) with ⟨heq, -⟩ | ⟨l1, i', l2, hsplit, heq, -, -, -⟩
  · rw [heq] at h; simp at h
  · rw [heq] at h
    simp only [Option.some.injEq] at h
    subst h
    rw [hsplit]
    simp

theorem mmrPick_isSome {lam : ℚ} {normS : Nat → ℚ} {sim : Nat → Nat → ℚ}
    {selected cands : List Nat}
    (h : ∃ j ∈ cands, -(1000000000 : ℚ) < mmrValue lam normS sim selected j) :
    ∃ i, (mmrPick lam normS sim selected cands).1 = some i := by
  rw [mmrPick_eq_foldl]
  rcases mmrPick_foldl_spec (mmrValue lam normS sim selected) cands
      (none, -(1000000000 : ℚ)) with ⟨heq, hall⟩ | ⟨l1, i, l2, hsplit, heq, -, -, -⟩
  · obtain ⟨j, hj, hjv⟩ := h
    exact absurd (hall j hj) (not_le_of_lt hjv)
  · exact ⟨i, by rw [heq]⟩

/-! ### Loop invariants for `mmrLoop` -/

theorem mmrLoop_nodup (lam : ℚ) (normS : Nat → ℚ) (sim : Nat → Nat → ℚ) (k : Nat) :
    ∀ (fuel : Nat) (selected cands : List Nat),
      selected.Nodup → cands.Nodup → (∀ j ∈ selected, j ∉ cands) →
      (mmrLoop lam normS sim k fuel selected cands).Nodup := by
  intro fuel
  induction fuel with
  | zero => intro selected cands hs _ _; exact hs
  | succ m ih =>
    intro selected cands hs hc hdisj
    rw [mmrLoop]
    by_cases hlen : selected.length < k
    · rw [if_pos hlen]
      cases hp : (mmrPick lam normS sim selected cands).1 with
      | none => exact hs
      | some i =>
        have hi : i ∈ cands := mmrPick_mem hp
        apply ih
        · rw [List.nodup_append]
          exact ⟨hs, List.nodup_singleton i, by
            intro a ha hb
            rw [List.mem_singleton] at hb
            subst hb
            exact hdisj a ha hi⟩
        · exact hc.erase i
        · intro j hj
          rcases List.mem_append.mp hj with h2 | h2
          · intro hmem
            exact hdisj j h2 ((List.erase_sublist ..).subset hmem)
          · rw [List.mem_singleton] at h2
            subst h2
            intro hmem
            exact absurd ((hc.mem_erase_iff).mp hmem).1 (by simp)
    · rw [if_neg hlen]
      exact hs

theorem mmrLoop_mem (lam : ℚ) (normS : Nat → ℚ) (sim : Nat → Nat → ℚ) (k n : Nat) :
    ∀ (fuel : Nat) (selected cands : List Nat),
      (∀ j ∈ selected, j < n) → (∀ j ∈ cands, j < n) →
      ∀ j ∈ mmrLoop lam normS sim k fuel selected cands, j < n := by
  intro fuel
  induction fuel with
  | zero => intro selected cands hs _ j hj; exact hs j hj
  | succ m ih =>
    intro selected cands hs hc
    rw [mmrLoop]
    by_cases hlen : selected.length < k
    · rw [if_pos hlen]
      cases hp : (mmrPick lam normS sim selected cands).1 with
      | none => exact hs
      | some i =>
        apply ih
        · intro j hj
          rcases List.mem_append.mp hj with h2 | h2
          · exact hs j h2
          · rw [List.mem_singleton] at h2
            subst h2
            exact hc j (mmrPick_mem hp)
        · intro j hj
          exact hc j ((List.erase_sublist ..).subset hj)
    · rw [if_neg hlen]
      exact hs

theorem mmrLoop_length (lam : ℚ) (normS : Nat → ℚ) (sim : Nat → Nat → ℚ) (k n : Nat)
    (hval : ∀ (selected : List Nat) (i : Nat), i < n → (∀ j ∈ selected, j < n) →
      -(1000000000 : ℚ) < mmrValue lam normS sim selected i) :
    ∀ (fuel : Nat) (selected cands : List Nat),
      fuel = cands.length →
      (∀ j ∈ selected, j < n) → (∀ j ∈ cands, j < n) →
      cands.Nodup → selected.length ≤ k →
      (mmrLoop lam normS sim k fuel selected cands).length =
        min k (selected.length + cands.length) := by
  intro fuel
  induction fuel with
  | zero =>
    intro selected cands hfuel hs hc hnd hk
    have hcand : cands = [] := List.length_eq_zero.mp hfuel.symm
    subst hcand
    rw [mmrLoop]
    simp only [List.length_nil, Nat.add_zero]
    exact (Nat.min_eq_right hk).symm
  | succ m ih =>
    intro selected cands hfuel hs hc hnd hk
    rw [mmrLoop]
    by_cases hlen : selected.length < k
    · rw [if_pos hlen]
      have hcne : cands ≠ [] := by
        intro h
        rw [h] at hfuel
        simp at hfuel
      obtain ⟨c0, hc0⟩ := List.exists_mem_of_ne_nil cands hcne
      obtain ⟨i, hp⟩ := mmrPick_isSome
        ⟨c0, hc0, hval selected c0 (hc c0 hc0) hs⟩
      rw [hp]
      have hi : i ∈ cands := mmrPick_mem hp
      have hrec := ih (selected ++ [i]) (cands.erase i)
        (by rw [List.length_erase_of_mem hi]; omega)
        (by intro j hj
            rcases List.mem_append.mp hj with h2 | h2
            · exact hs j h2
            · rw [List.mem_singleton] at h2; subst h2; exact hc j hi)
        (by intro j hj; exact hc j ((List.erase_sublist ..).subset hj))
        (hnd.erase i) (by rw [List.length_append, List.length_singleton]; omega)
      rw [hrec, List.length_append, List.length_singleton,
          List.length_erase_of_mem hi]
      have hpos : 1 ≤ cands.length := List.length_pos.mpr hcne
      congr 1
      omega
    · rw [if_neg hlen]
      have : selected.length = k := by omega
      rw [this]
      exact (Nat.min_eq_left (by omega)).symm

/-! ### Value bounds for the MMR loop -/

theorem mmrNormScores_nonneg (sdict : Nat → ℚ) (n : Nat)
    (hs : ∀ i, i < n → 0 ≤ sdict i) : ∀ i, i < n → 0 ≤ mmrNormScores sdict n i := by
  intro i hi
  rw [mmrNormScores]
  by_cases hmx : 0 < npMax ((List.range n).map sdict)
  · rw [if_pos hmx]
    have hmem : sdict i ∈ (List.range n).map sdict :=
      List.mem_map.mpr ⟨i, List.mem_range.mpr hi, rfl⟩
    have hmin := npMin_le_of_mem hmem
    have hne : (List.range n).map sdict ≠ [] := by
      intro h
      rw [List.map_eq_nil, List.range_eq_nil] at h
      omega
    have hminmax := npMin_le_of_mem (npMax_mem hne)
    apply div_nonneg
    · linarith
    · have : (0 : ℚ) < 1/1000000000000 := by norm_num
      linarith
  · rw [if_neg hmx]
    exact hs i hi

theorem mmrValue_lower_bound (lam : ℚ) (sdict : Nat → ℚ) (sim : Nat → Nat → ℚ) (n : Nat)
    (hlam0 : 0 ≤ lam) (hlam1 : lam ≤ 1)
    (hs : ∀ i, i < n → 0 ≤ sdict i)
    (hsim : ∀ i j, i < n → j < n → 0 ≤ sim i j ∧ sim i j ≤ 1)
    (selected : List Nat) (i : Nat) (hi : i < n) (hsel : ∀ j ∈ selected, j < n) :
    -(1000000000 : ℚ) < mmrValue lam (mmrNormScores sdict n) sim selected i := by
  rw [mmrValue]
  have h1 : 0 ≤ lam * mmrNormScores sdict n i :=
    mul_nonneg hlam0 (mmrNormScores_nonneg sdict n hs i hi)
  have h2 : (1 - lam) * simToSelected sim i selected ≤ 1 := by
    rw [simToSelected]
    by_cases hsel2 : selected.isEmpty = true
    · rw [if_pos hsel2]
      linarith
    · rw [if_neg hsel2]
      have hne : selected.map (fun j => sim i j) ≠ [] := by
        intro h
        rw [List.map_eq_nil] at h
        rw [h] at hsel2
        simp at hsel2
      obtain ⟨j, hj, hv⟩ := List.mem_map.mp (npMax_mem hne)
      have hb := hsim i j hi (hsel j hj)
      apply mul_le_one (by linarith) (by rw [← hv]; exact hb.1) (by rw [← hv]; exact hb.2)
  linarith

/-! ### Claims C6 and C7: selection size and the k = 1 arg-max property -/

/-- C6, counterexample: with a large negative score, no candidate beats the
initial `-1e9` best, so `mmr` returns an empty selection although
`min(k, n) = 1` (the claim quantifies over every score map). -/
theorem mmr_selection_size_claim_false :
    (mmr (fun _ => -(10000000000 : ℚ)) (fun _ _ => 0) 1 1 (7/10)).length ≠ min 1 1 := by
  have hnorm : mmrNormScores (fun _ => -(10000000000 : ℚ)) 1 =
      fun _ => -(10000000000 : ℚ) := by
    rw [mmrNormScores, if_neg]
    intro hcon
    have hmax : npMax ((List.range 1).map fun _ => -(10000000000 : ℚ)) =
        -(10000000000 : ℚ) := rfl
    rw [hmax] at hcon
    norm_num at hcon
  have hpick : (mmrPick (7/10) (fun _ => -(10000000000 : ℚ)) (fun _ _ => 0) []
      (List.range 1)).1 = none := by
    rw [mmrPick_eq_foldl]
    rw [show List.range 1 = [0] from rfl, List.foldl_cons, List.foldl_nil]
    rw [if_neg]
    intro hcon
    norm_num [mmrValue, simToSelected] at hcon
  rw [mmr, mmrLoop, if_pos (by simp), hnorm, hpick]
  decide

/-- C6 (amended): for every n ≥ 1, k ≥ 1, λ ∈ [0,1], nonnegative score map
and similarity matrix with entries in [0,1] (the data-model invariants of the
pipeline), `mmr` returns exactly min(k, n) indices, pairwise distinct and all
drawn from 0..n-1.  (For n = 0 the underlying `scores.max()` raises, and with
unboundedly negative scores the selection can stop early.) -/
theorem mmr_selection_size (sdict : Nat → ℚ) (sim : Nat → Nat → ℚ) (n k : Nat) (lam : ℚ)
    (hn : 1 ≤ n) (hk : 1 ≤ k) (hlam0 : 0 ≤ lam) (hlam1 : lam ≤ 1)
    (hs : ∀ i, i < n → 0 ≤ sdict i)
    (hsim : ∀ i j, i < n → j < n → 0 ≤ sim i j ∧ sim i j ≤ 1) :
    (mmr sdict sim n k lam).length = min k n ∧
    (mmr sdict sim n k lam).Nodup ∧
    (∀ i ∈ mmr sdict sim n k lam, i < n) := by
  refine ⟨?_, ?_, ?_⟩
  · have h := mmrLoop_length lam (mmrNormScores sdict n) sim k n
      (fun selected i hi hsel =>
        mmrValue_lower_bound lam sdict sim n hlam0 hlam1 hs hsim selected i hi hsel)
      n [] (List.range n) (by rw [List.length_range])
      (by intro j hj; simp at hj)
      (by intro j hj; exact List.mem_range.mp hj)
      (List.nodup_range n) (by simp)
    rw [mmr]
    rw [h, List.length_nil, List.length_range]
    omega
  · exact mmrLoop_nodup lam (mmrNormScores sdict n) sim k n [] (List.range n)
      List.nodup_nil (List.nodup_range n) (by intro j hj; simp at hj)
  · exact mmrLoop_mem lam (mmrNormScores sdict n) sim k n n [] (List.range n)
      (by intro j hj; simp at hj) (by intro j hj; exact List.mem_range.mp hj)

/-- C6 witness: n = 2 sentences, k = 5 requested, pipeline-shaped inputs. -/
theorem mmr_selection_size_witness :
    (mmr (fun i => (i : ℚ)) (fun _ _ => 0) 2 5 (7/10)).length = min 5 2 ∧
    (mmr (fun i => (i : ℚ)) (fun _ _ => 0) 2 5 (7/10)).Nodup ∧
    (∀ i ∈ mmr (fun i => (i : ℚ)) (fun _ _ => 0) 2 5 (7/10), i < 2) :=
  mmr_selection_size (fun i => (i : ℚ)) (fun _ _ => 0) 2 5 (7/10)
    (by norm_num) (by norm_num) (by norm_num) (by norm_num)
    (by intro i _; positivity)
    (by intro i j _ _; norm_num)

/-- C7: with k = 1 the selected sentence maximizes the normalized score, and
among equal maxima the lowest index wins (the deterministic tie-break). -/
theorem mmr_k1_first_max (sdict : Nat → ℚ) (sim : Nat → Nat → ℚ) (n : Nat) (lam : ℚ)
    (hn : 1 ≤ n) (hlam : 0 < lam) (hs : ∀ i, i < n → 0 ≤ sdict i) :
    ∃ i, i < n ∧ mmr sdict sim n 1 lam = [i] ∧
      (∀ j, j < n → mmrNormScores sdict n j ≤ mmrNormScores sdict n i) ∧
      (∀ j, j < i → mmrNormScores sdict n j < mmrNormScores sdict n i) := by
  obtain ⟨m, rfl⟩ : ∃ m, n = m + 1 := ⟨n - 1, by omega⟩
  set normS := mmrNormScores sdict (m + 1) with hnormS
  have hval0 : ∀ j, mmrValue lam normS sim [] j = lam * normS j := by
    intro j
    rw [mmrValue, simToSelected]
    simp
  rcases mmrPick_foldl_spec (mmrValue lam normS sim []) (List.range (m + 1))
      (none, -(1000000000 : ℚ)) with ⟨heq, hall⟩ | ⟨l1, i, l2, hsplit, heq, hlt, hl1, hl2⟩
  · exfalso
    have h0 := hall 0 (List.mem_range.mpr (by omega))
    rw [hval0] at h0
    have : 0 ≤ lam * normS 0 :=
      mul_nonneg hlam.le (mmrNormScores_nonneg sdict (m + 1) hs 0 (by omega))
    simp only at h0
    linarith
  · have hp : (mmrPick lam normS sim [] (List.range (m + 1))).1 = some i := by
      rw [mmrPick_eq_foldl, heq]
    have hi : i < m + 1 := by
      have : i ∈ List.range (m + 1) := by rw [hsplit]; simp
      exact List.mem_range.mp this
    have hresult : mmr sdict sim (m + 1) 1 lam = [i] := by
      rw [mmr, mmrLoop, if_pos (by simp), ← hnormS, hp]
      show mmrLoop lam normS sim 1 m ([] ++ [i]) ((List.range (m + 1)).erase i) = [i]
      cases m with
      | zero => rfl
      | succ m2 => rfl
    have hpw := List.pairwise_lt_range (m + 1)
    rw [hsplit] at hpw
    obtain ⟨hpw1, hpw2, hcross⟩ := List.pairwise_append.mp hpw
    have hil2 : ∀ j ∈ l2, i < j := (List.pairwise_cons.mp hpw2).1
    refine ⟨i, hi, hresult, ?_, ?_⟩
    · intro j hj
      have hmem : j ∈ List.range (m + 1) := List.mem_range.mpr hj
      rw [hsplit] at hmem
      rcases List.mem_append.mp hmem with h2 | h2
      · have := hl1 j h2
        rw [hval0, hval0] at this
        exact le_of_lt ((mul_lt_mul_left hlam).mp this)
      · rcases List.mem_cons.mp h2 with h3 | h3
        · subst h3; exact le_refl _
        · have := hl2 j h3
          rw [hval0, hval0] at this
          exact (mul_le_mul_left hlam).mp this
    · intro j hj
      have hmem : j ∈ List.range (m + 1) := List.mem_range.mpr (by omega)
      rw [hsplit] at hmem
      rcases List.mem_append.mp hmem with h2 | h2
      · have := hl1 j h2
        rw [hval0, hval0] at this
        exact (mul_lt_mul_left hlam).mp this
      · rcases List.mem_cons.mp h2 with h3 | h3
        · omega
        · exact absurd (hil2 j h3) (by omega)

/-- C7 witness: a concrete two-sentence instance; index 1 has the higher
score and is selected. -/
theorem mmr_k1_first_max_witness :
    ∃ i, i < 2 ∧ mmr (fun j => (j : ℚ)) (fun _ _ => 0) 2 1 (7/10) = [i] ∧
      (∀ j, j < 2 → mmrNormScores (fun j => (j : ℚ)) 2 j ≤
        mmrNormScores (fun j => (j : ℚ)) 2 i) ∧
      (∀ j, j < i → mmrNormScores (fun j => (j : ℚ)) 2 j <
        mmrNormScores (fun j => (j : ℚ)) 2 i) :=
  mmr_k1_first_max (fun j => (j : ℚ)) (fun _ _ => 0) 2 (7/10)
    (by norm_num) (by norm_num) (by intro i _; positivity)

/-! ### Claim C8: ranking never propagates an exception -/

theorem posMult_nonneg (i doc_len : Nat) : 0 ≤ posMult i doc_len := by
  unfold posMult
  split
  · norm_num
  · split
    · norm_num
    · split <;> norm_num

/-- C8: whatever the outcome of the external PageRank call (including an
exception, modelled by `none`), `textrank_scores` assigns one nonnegative
score to every index 0..n-1; on failure the scores are the deterministic
uniform base `1/doc_len` times the position multiplier. -/
theorem textrank_scores_safe (sim : Nat → Nat → ℚ) (n doc_len : Nat)
    (prOutcome : Option (Nat → ℚ))
    (hpr : ∀ p, prOutcome = some p → ∀ i, 0 ≤ p i) :
    (∀ i, i < n → 0 ≤ (textrank_scores sim n doc_len prOutcome).2 i) ∧
    (prOutcome = none → ∀ i,
      (textrank_scores sim n doc_len prOutcome).2 i =
        if i < n then (1 / (doc_len : ℚ)) * posMult i doc_len else 0) := by
  constructor
  · intro i hi
    rw [textrank_scores]
    simp only [if_pos hi]
    cases hpo : prOutcome with
    | some p =>
      exact mul_nonneg (hpr p hpo i) (posMult_nonneg i doc_len)
    | none =>
      apply mul_nonneg _ (posMult_nonneg i doc_len)
      apply div_nonneg (by norm_num)
      exact Nat.cast_nonneg doc_len
  · intro hnone i
    rw [hnone, textrank_scores]

/-- C8 witness: a concrete failed-PageRank instance. -/
theorem textrank_scores_safe_witness :
    (0 ≤ (textrank_scores (fun _ _ => 0) 3 3 none).2 0) ∧
    ((textrank_scores (fun _ _ => 0) 3 3 none).2 1 =
      if 1 < 3 then (1 / (3 : ℚ)) * posMult 1 3 else 0) :=
  ⟨(textrank_scores_safe (fun _ _ => 0) 3 3 none (fun p hp => Option.noConfusion hp)).1 0
      (by norm_num),
   (textrank_scores_safe (fun _ _ => 0) 3 3 none (fun p hp => Option.noConfusion hp)).2 rfl 1⟩

/-! ### Simple-tone cleanup (`clean_for_simple_tone`, `app.py`
lines 1248-1263) -/

/-- One attempted match of `\[[\d,\-\s]+\]` anchored at the head: `[`, a
nonempty maximal run over the class, then `]` (no useful backtracking, since
`]` is not in the class). -/
def matchCitation (l : List Char) : Option (List Char) :=
  match l with
  | '[' :: rest =>
    if (rest.takeWhile (fun c => isDigit09 c || c = ',' || c = '-' || isPySpace c)).isEmpty
    then none
    else
      match rest.dropWhile (fun c => isDigit09 c || c = ',' || c = '-' || isPySpace c) with
      | ']' :: rest2 => some rest2
      | _ => none
  | _ => none

/-- `re.sub(r'\[[\d,\-\s]+\]', '', text)` (line 1251). -/
def citationSub (l : List Char) : List Char :=
  scanSub (fun r => (matchCitation r).map (fun rest => ([], rest))) l.length l

/-- One attempted match of `\([^)]*\)` anchored at the head: `(`, everything
up to the first `)`, then `)`. -/
def matchParen (l : List Char) : Option (List Char) :=
  match l with
  | '(' :: rest =>
    match rest.dropWhile (fun c => !(c = ')')) with
    | ')' :: rest2 => some rest2
    | _ => none
  | _ => none

/-- `re.sub(r'\([^)]*\)', '', text)` (line 1253). -/
def parenSub (l : List Char) : List Char :=
  scanSub (fun r => (matchParen r).map (fun rest => ([], rest))) l.length l

/-- The academic-connector list (lines 1255-1258). -/
def connectors : List String :=
  ["however", "therefore", "furthermore", "moreover", "thus",
   "hence", "consequently", "accordingly", "nevertheless",
   "nonetheless", "in conclusion", "in summary", "to conclude",
   "as a result", "on the other hand", "in contrast"]

/-- Case-insensitive (ASCII) prefix removal: the pattern is lowercase. -/
def ciDrop : List Char → List Char → Option (List Char)
  | [], l => some l
  | _ :: _, [] => none
  | p :: ps, c :: cs => if asciiLower c = p then ciDrop ps cs else none

/-- One attempted match of `\b{conn}\b[,\s]*` (case-insensitive) anchored at
the head, given that the start boundary already holds: the connector, a word
boundary after it (every connector ends in a letter), then a maximal run of
commas and whitespace. -/
def ciMatchConn (conn : List Char) (l : List Char) : Option (List Char) :=
  match ciDrop conn l with
  | none => none
  | some rest =>
    match rest with
    | [] => some []
    | d :: _ =>
      if isWordChar d then none
      else some (rest.dropWhile (fun c => c = ',' || isPySpace c))

/-- `re.sub(fr'\b{conn}\b[,\s]*', '', text, flags=re.IGNORECASE)`
(lines 1259-1260) for one connector.  `prevW` tracks whether the previous
character is a word character (a match can only start when it is not, since
every connector starts with a letter).  After a successful match the next
character is never a word character (the end boundary or the consumed
`[,\s]*` run guarantees the following attempt fails anyway), so restarting
with `prevW = false` is sound. -/
def connSubAux (conn : List Char) : Nat → Bool → List Char → List Char
  | _, _, [] => []
  | 0, _, l => l
  | fuel + 1, prevW, c :: cs =>
    match (if prevW then none else ciMatchConn conn (c :: cs)) with
    | some rest => connSubAux conn fuel false rest
    | none => c :: connSubAux conn fuel (isWordChar c) cs

def connSub (conn : List Char) (l : List Char) : List Char :=
  connSubAux conn l.length false l

/-- `clean_for_simple_tone` (lines 1248-1263): strip citations, strip
parentheticals, strip the connectors in list order, collapse whitespace,
strip. -/
def clean_for_simple_tone (text : String) : String :=
  String.mk (stripWs (collapseWs
    (connectors.foldl (fun acc conn => connSub conn.toList acc)
      (parenSub (citationSub text.toList)))))

/-! ### Structurer (`build_structured_summary`, `app.py` lines 1265-1338) -/

/-- `re.split(r'(?<=[.!?])\s+', text)` (line 1272): split at every maximal
whitespace run immediately preceded by `.`, `!` or `?`; the run is consumed.
`inSep` is true while consuming such a run. -/
def splitAfterTermAux : Bool → List Char → List Char → List (List Char)
  | _, curRev, [] => [curRev.reverse]
  | true, curRev, c :: cs =>
    if isPySpace c then splitAfterTermAux true curRev cs
    else splitAfterTermAux false (c :: curRev) cs
  | false, curRev, c :: cs =>
    if (match curRev with
        | p1 :: _ => isTermin p1
        | [] => false) && isPySpace c then
      curRev.reverse :: splitAfterTermAux true [] cs
    else splitAfterTermAux false (c :: curRev) cs

/-- Python `" ".join(...)`. -/
def joinSpace (l : List String) : String := String.intercalate " " l

def asciiUpper (c : Char) : Char :=
  if 'a' ≤ c && c ≤ 'z' then Char.ofNat (c.toNat - 32) else c

/-- `if i > 0 and not sent[0].islower(): sent = sent[0].lower() + sent[1:]`
(lines 1278-1279); on an empty part Python would raise an IndexError, but the
pipeline never produces one (the split input is stripped and nonempty in the
more-than-one-part branch). -/
def lowerFirst (i : Nat) (sent : String) : String :=
  match sent.toList with
  | [] => sent
  | c :: rest =>
    if 0 < i ∧ isLowerAZ c = false then String.mk (asciiLower c :: rest) else sent

/-- The simple-tone paragraph (lines 1266-1289). -/
def simpleParagraph (summary_sentences : List String) : String :=
  let simple_text := clean_for_simple_tone (joinSpace summary_sentences)
  let sentences := (splitAfterTermAux false [] simple_text.toList).map String.mk
  if 1 < sentences.length then
    let cleaned := sentences.mapIdx (fun i sent => lowerFirst i (String.mk (stripWs sent.toList)))
    match (joinSpace cleaned).toList with
    | [] => joinSpace cleaned
    | c :: rest => String.mk (asciiUpper c :: rest)
  else simple_text

/-- `section_titles` (lines 1297-1306), in dict order. -/
def section_titles : List (String × String) :=
  [("key goals", "Key Goals & Targets"),
   ("policy principles", "Policy Principles & Vision"),
   ("service delivery", "Healthcare Delivery Systems"),
   ("prevention & promotion", "Prevention & Wellness Programs"),
   ("human resources", "Healthcare Workforce Development"),
   ("financing & costs", "Financing & Resource Allocation"),
   ("digital health", "Digital Health Initiatives"),
   ("other", "Additional Observations")]

/-- `cat_map[cat]` of the grouping loop (lines 1292-1295): the selected
sentences assigned to `cat`, in first-seen order. -/
def catGroup (summary_sentences : List String) (cat : String) : List String :=
  summary_sentences.filter (fun s => score_sentence_categories s = cat)

/-- The per-section dedup loop (lines 1311-1317): clean each sentence, keep
nonempty first occurrences. -/
def dedupClean : List String → List String → List String
  | _, [] => []
  | seen, s :: rest =>
    let cs := clean_for_simple_tone s
    if cs ≠ "" ∧ cs ∉ seen then cs :: dedupClean (cs :: seen) rest
    else dedupClean seen rest

/-- The sections loop (lines 1308-1320). -/
def buildSections (summary_sentences : List String) : List (String × List String) :=
  section_titles.filterMap (fun kt =>
    if catGroup summary_sentences kt.1 = [] then none
    else
      match dedupClean [] (catGroup summary_sentences kt.1) with
      | [] => none
      | uniq => some (kt.2, uniq))

/-- The abstract construction (lines 1322-1332); after the sections loop the
`defaultdict` contains every section key, so `if cat in cat_map` is always
true and the candidates are the first two "key goals" and "policy principles"
sentences. -/
def buildAbstract (summary_sentences : List String) : String :=
  let cands := (catGroup summary_sentences "key goals").take 2 ++
    (catGroup summary_sentences "policy principles").take 2
  let cands := if cands = [] ∧ summary_sentences ≠ [] then summary_sentences.take 3
    else cands
  clean_for_simple_tone (joinSpace (cands.take 3))

structure StructuredSummary where
  abstract : String
  sections : List (String × List String)
  tone : String

/-- `build_structured_summary` (lines 1265-1338); `language` is accepted and
unused, as in the source. -/
def build_structured_summary (summary_sentences : List String)
    (tone language : String) : StructuredSummary :=
  if tone = "simple" then
    { abstract := simpleParagraph summary_sentences, sections := [], tone := "simple" }
  else
    { abstract := buildAbstract summary_sentences,
      sections := buildSections summary_sentences, tone := "academic" }

/-! ### The extractive pipeline (`summarize_extractive`, `app.py`
lines 1211-1246) -/

/-- `sentences = sentence_split(normalize_whitespace(raw_text))`
(lines 1212-1213). -/
def pipelineSentences (raw_text : String) : List String :=
  sentence_split (normalize_whitespace raw_text)

/-- The target sentence count (lines 1219-1236): length-dependent ratio with
min/max clamps (`int()` truncates the nonnegative product, i.e. floor; the
float ratios are modelled by their decimal values), then the very-short
document override. -/
def targetK (n : Nat) (length_choice : String) : Nat :=
  let ratio : ℚ := if length_choice = "short" then 8/100
    else if length_choice = "long" then 35/100 else 18/100
  let min_k : Nat := if length_choice = "short" then 2
    else if length_choice = "long" then 12 else 6
  let max_k : Nat := if length_choice = "short" then 5
    else if length_choice = "long" then 20 else 10
  let t := min (min (max min_k (Int.toNat ⌊(n : ℚ) * ratio⌋)) max_k) n
  if n < 10 then min 3 n else t

/-- The similarity matrix `mmr` receives (lines 1238-1242): the TF-IDF cosine
matrix built by the external libraries (the oracle `simOf`), after
`textrank_scores` zeroed its diagonal in place. -/
def summarize_sim_for_mmr (simOf : List String → Nat → Nat → ℚ)
    (prOutcome : Option (Nat → ℚ)) (raw_text : String) : Nat → Nat → ℚ :=
  (textrank_scores (simOf (pipelineSentences raw_text))
    (pipelineSentences raw_text).length (pipelineSentences raw_text).length prOutcome).1

/-- The score dict `mmr` receives (line 1241). -/
def summarize_scores_for_mmr (simOf : List String → Nat → Nat → ℚ)
    (prOutcome : Option (Nat → ℚ)) (raw_text : String) : Nat → ℚ :=
  (textrank_scores (simOf (pipelineSentences raw_text))
    (pipelineSentences raw_text).length (pipelineSentences raw_text).length prOutcome).2

/-- Python `selected_idxs.sort()` (ascending). -/
def pySort (l : List Nat) : List Nat := l.mergeSort (fun a b => a ≤ b)

/-- The sorted index selection of `summarize_extractive` (lines 1242-1243);
in the `n ≤ 3` early-return branch all sentences are kept, i.e. the selection
is the identity `range n`. -/
def summarize_selection (simOf : List String → Nat → Nat → ℚ)
    (prOutcome : Option (Nat → ℚ)) (raw_text length_choice : String) : List Nat :=
  let n := (pipelineSentences raw_text).length
  if n ≤ 3 then List.range n
  else
    pySort (mmr (summarize_scores_for_mmr simOf prOutcome raw_text)
      (summarize_sim_for_mmr simOf prOutcome raw_text) n (targetK n length_choice)
      (if length_choice = "short" then 6/10 else 7/10))

/-- `summarize_extractive` (lines 1211-1246): the selected sentences in
ascending original order (the source returns the pair `(final_sents, {})`;
the constant second component is omitted). -/
def summarize_extractive (simOf : List String → Nat → Nat → ℚ)
    (prOutcome : Option (Nat → ℚ)) (raw_text length_choice : String) : List String :=
  let sentences := pipelineSentences raw_text
  if sentences.length ≤ 3 then sentences
  else (summarize_selection simOf prOutcome raw_text length_choice).map
    (fun i => sentences.getD i "")

/-! ### Claim C1: the final selection is in strictly increasing document
order -/

theorem mmr_nodup (sdict : Nat → ℚ) (sim : Nat → Nat → ℚ) (n k : Nat) (lam : ℚ) :
    (mmr sdict sim n k lam).Nodup :=
  mmrLoop_nodup lam (mmrNormScores sdict n) sim k n [] (List.range n)
    List.nodup_nil (List.nodup_range n) (by intro j hj; simp at hj)

theorem pySort_sorted_lt {l : List Nat} (h : l.Nodup) :
    List.Sorted (· < ·) (pySort l) := by
  have hs : List.Sorted (· ≤ ·) (pySort l) := by
    have hms := @List.sorted_mergeSort Nat (fun a b : Nat => a ≤ b)
      (by intro a b c h1 h2; simp only [decide_eq_true_eq] at h1 h2 ⊢; omega)
      (by intro a b
          simp only [Bool.or_eq_true, decide_eq_true_eq]
          omega) l
    refine List.Pairwise.imp ?_ hms
    intro a b hab
    simpa using hab
  have hnd : (pySort l).Nodup := (List.mergeSort_perm l _).nodup_iff.mpr h
  exact hs.lt_of_le hnd

/-- C1: for every input document and configuration (and every behaviour of
the external TF-IDF/PageRank libraries), the sentence indices in the final
selection of `summarize_extractive` are strictly increasing, so summary
sentences appear in source order, never in rank order. -/
theorem summarize_selection_sorted (simOf : List String → Nat → Nat → ℚ)
    (prOutcome : Option (Nat → ℚ)) (raw_text length_choice : String) :
    List.Sorted (· < ·) (summarize_selection simOf prOutcome raw_text length_choice) := by
  rw [summarize_selection]
  by_cases h : (pipelineSentences raw_text).length ≤ 3
  · rw [if_pos h]
    exact List.pairwise_lt_range _
  · rw [if_neg h]
    exact pySort_sorted_lt (mmr_nodup _ _ _ _ _)

/-! ### Claim C2: short-document passthrough -/

/-- C2 (amended): whenever segmentation yields at most 3 sentences,
`summarize_extractive` returns exactly those sentences verbatim, in order,
for every requested length; the tone-dependent structurer applied afterwards
may still rewrite the text, so the rendered summary need not be verbatim. -/
theorem summarize_extractive_short_passthrough (simOf : List String → Nat → Nat → ℚ)
    (prOutcome : Option (Nat → ℚ)) (raw_text length_choice : String)
    (h : (sentence_split (normalize_whitespace raw_text)).length ≤ 3) :
    summarize_extractive simOf prOutcome raw_text length_choice =
      sentence_split (normalize_whitespace raw_text) := by
  rw [summarize_extractive]
  exact if_pos h

/-- C2 witness: a two-sentence document is passed through unchanged by the
extractive stage at the "long" setting. -/
theorem summarize_extractive_short_passthrough_witness :
    (sentence_split (normalize_whitespace
      "This is the first sentence here. That was the second sentence here.")).length ≤ 3 ∧
    summarize_extractive (fun _ _ _ => 0) none
        "This is the first sentence here. That was the second sentence here." "long" =
      sentence_split (normalize_whitespace
        "This is the first sentence here. That was the second sentence here.") :=
  ⟨by decide, summarize_extractive_short_passthrough _ _ _ _ (by decide)⟩

/-- C2, counterexample: a two-sentence document is passed through by
`summarize_extractive`, but the simple-tone structurer lower-cases the second
sentence, so the produced summary text is not the verbatim sentences. -/
theorem short_passthrough_claim_false :
    summarize_extractive (fun _ _ _ => 0) none
        "This is the first sentence here. That was the second sentence here." "short" =
      ["This is the first sentence here.", "That was the second sentence here."] ∧
    (build_structured_summary
        ["This is the first sentence here.", "That was the second sentence here."]
        "simple" "en").abstract ≠
      "This is the first sentence here. That was the second sentence here." := by
  constructor
  · decide
  · decide

/-! ### Claim C9: zero-sentence segmentation is not surfaced as a failure -/

/-- The only rejection guard on the PDF/text path of `summarize` (`app.py`,
line 1611): `abort(400)` exactly when the extracted text has fewer than 50
characters; there is no zero-sentence check anywhere on the path. -/
def summarize_rejects (orig_text : String) : Bool := orig_text.length < 50

/-- C9: the code contradicts the claim.  A 60-character pure-number input
passes the length guard, segments to zero sentences, and the pipeline
silently produces an empty summary (empty abstract, no sections) instead of a
hard failure. -/
theorem zero_sentence_input_not_rejected :
    summarize_rejects "12345. 67890. 12345. 67890. 12345. 67890. 12345. 67890. 123." = false ∧
    sentence_split (normalize_whitespace
      "12345. 67890. 12345. 67890. 12345. 67890. 12345. 67890. 123.") = [] ∧
    summarize_extractive (fun _ _ _ => 0) none
      "12345. 67890. 12345. 67890. 12345. 67890. 12345. 67890. 123." "medium" = [] ∧
    (build_structured_summary [] "simple" "en").abstract = "" ∧
    (build_structured_summary [] "academic" "en").abstract = "" ∧
    (build_structured_summary [] "academic" "en").sections = [] := by
  decide

/-! ### Claim C10: the in-place diagonal fill -/

/-- C10: `textrank_scores` zeroes every diagonal entry of its similarity
matrix argument in place and changes no off-diagonal entry, so the matrix
`summarize_extractive` subsequently hands to `mmr`
(`summarize_sim_for_mmr`, by definition the first component of the
`textrank_scores` state) has a zero diagonal while all pairwise similarities
of the oracle matrix are preserved. -/
theorem summarize_sim_for_mmr_zero_diag (simOf : List String → Nat → Nat → ℚ)
    (prOutcome : Option (Nat → ℚ)) (raw_text : String) (i j : Nat) :
    summarize_sim_for_mmr simOf prOutcome raw_text i i = 0 ∧
    (i ≠ j → summarize_sim_for_mmr simOf prOutcome raw_text i j =
      simOf (pipelineSentences raw_text) i j) := by
  constructor
  · rw [summarize_sim_for_mmr, textrank_scores]
    simp
  · intro hij
    rw [summarize_sim_for_mmr, textrank_scores]
    simp [hij]

/-- C10 witness: a concrete off-diagonal entry is preserved while the
diagonal is zeroed. -/
theorem summarize_sim_for_mmr_zero_diag_witness :
    summarize_sim_for_mmr (fun _ _ _ => (1 : ℚ)) none "abc" 0 0 = 0 ∧
    summarize_sim_for_mmr (fun _ _ _ => (1 : ℚ)) none "abc" 0 1 = 1 :=
  ⟨(summarize_sim_for_mmr_zero_diag (fun _ _ _ => (1 : ℚ)) none "abc" 0 1).1,
   (summarize_sim_for_mmr_zero_diag (fun _ _ _ => (1 : ℚ)) none "abc" 0 1).2
     (by decide)⟩
